import Mathlib

/-!
Shallow embedding of the constraint-compilation and mutation engine of the
`libchai` repository (`src/constraints.rs`), together with the solution
reporting of `src/cli.rs`, and proofs of the specified properties.

Conventions of the embedding:
* `Key` and `Element` are integer handles, modelled as `Nat`.
* A `KeyMap` (layout) is a `List Key`; Rust's `Vec` indexing `map[e]` is
  modelled with `List.getD`/`List.set` (theorems carry the in-bounds
  hypotheses under which the Rust code does not panic).
* Rust's `HashSet<Element>` is modelled as a `List Element` with membership;
  `HashMap<Element, Vec<Key>>` as an association list whose insert prepends
  and whose lookup takes the first match (so insert overwrites, exactly like
  `HashMap::insert`).
* Randomness is made explicit: each random draw of the source becomes a
  parameter.  `rand::seq::SliceRandom::choose` becomes `chooseKey`, which
  takes the drawn raw number and returns `none` exactly when the slice is
  empty (the situation in which the source's `.unwrap()` panics); the
  rejection-sampling loops `get_movable_element` / `get_swappable_element`
  take the stream of raw draws as a list and return `none` when the stream
  is exhausted without finding a non-fixed element (a finite prefix of a
  diverging run).
* Fallible Rust functions returning `Result<_, Error>` become `Except String`.
-/

namespace Chai

abbrev Key := Nat

abbrev Element := Nat

abbrev KeyMap := List Key

/-- One slot of a normalized element code: either a literal key assignment
(`MappedKey::Ascii`) or a reference to another element's code. -/
inductive MappedKey where
  | ascii : Char → MappedKey
  | reference : MappedKey
deriving DecidableEq, Repr

/-- A declarative rule from the configuration (`config::AtomicConstraint`):
optional element name, optional code-position index, optional allowed-key
list. -/
structure AtomicConstraint where
  element : Option String
  index : Option Nat
  keys : Option (List Char)
deriving DecidableEq, Repr

/-- The three optional rule lists of `config.optimization.constraints`. -/
structure OptimConstraints where
  elements : Option (List AtomicConstraint)
  indices : Option (List AtomicConstraint)
  element_indices : Option (List AtomicConstraint)
deriving DecidableEq, Repr

/-- The parts of `representation::Representation` that `Constraints::new`
reads.  `elementRepr` models the composition of `assemble` (not part of the
given sources) with the `element_repr` name lookup; modelled from the spec:
"resolve the single `(element,index)` pair to one Element handle via a
name→Element lookup".  `mapping` is `config.form.mapping` with each value
already in its normalized form (`normalize` is likewise external); it is an
association list, fixing one iteration order for the `HashMap`. -/
structure Representation where
  initialLen : Nat
  alphabet : List Char
  keyRepr : Char → Option Key
  elementRepr : String → Nat → Option Element
  mapping : List (String × List MappedKey)
  constraints : Option OptimConstraints

/-- First-match lookup in the association list modelling a `HashMap`. -/
def lookupAssoc {β : Type} : List (String × β) → String → Option β
  | [], _ => none
  | (k, v) :: rest, name => if k = name then some v else lookupAssoc rest name

/-- First-match lookup in the association list modelling
`HashMap<Element, Vec<Key>>`. -/
def lookupNarrowed : List (Element × List Key) → Element → Option (List Key)
  | [], _ => none
  | (e, ks) :: rest, x => if e = x then some ks else lookupNarrowed rest x

/-- The compiled constraints (`Constraints` in `constraints.rs`). -/
structure Constraints where
  alphabet : List Key
  elements : Nat
  fixed : List Element
  narrowed : List (Element × List Key)
deriving DecidableEq, Repr

/-- `HashSet::insert` on the list model of `fixed`. -/
def insertFixed (e : Element) (s : List Element) : List Element :=
  if e ∈ s then s else e :: s

/-- `Cli::report_solution` (`cli.rs`), with its file-system effects embedded
as the list of `(path, content)` writes it performs; the timestamp-derived
prefix and the YAML serialization of the configuration are passed in (both
are produced by external crates).  When `save` is set it writes the metric
text under `output/<prefix>.txt` and the serialized scheme under
`output/<prefix>.yaml`; otherwise it writes nothing. -/
def report_solution (timePrefix : String) (configYaml : String)
    (metric : String) (save : Bool) : List (String × String) :=
  if save then
    [("output/" ++ timePrefix ++ ".txt", metric),
     ("output/" ++ timePrefix ++ ".yaml", configYaml)]
  else []

namespace Constraints

/-- The intermediate state of compilation: the `fixed` and `narrowed`
accumulators of `Constraints::new`. -/
structure CState where
  fixed : List Element
  narrowed : List (Element × List Key)
deriving DecidableEq, Repr

/-- Resolution of the `(None, Some index)` rule shape: scan the mapping in
order; for each entry whose normalized code at `index` is
`MappedKey::Ascii`, resolve `(entry name, index)` to an element. -/
def resolveByIndex (r : Representation) (index : Nat) :
    List (String × List MappedKey) → Except String (List Element)
  | [] => .ok []
  | (key, value) :: rest =>
      match value[index]? with
      | some (.ascii _) =>
          match r.elementRepr key index with
          | some e => (resolveByIndex r index rest).map (e :: ·)
          | none => .error (key ++ " 不存在于键盘映射中")
      | _ => resolveByIndex r index rest

/-- Resolution of the positions of one element's own code (the inner loop of
the `(Some element, None)` rule shape): for every slot that is a literal key
assignment, resolve `(element, position)`. -/
def resolveSlots (r : Representation) (element : String) :
    Nat → List MappedKey → Except String (List Element)
  | _, [] => .ok []
  | i, .ascii _ :: rest =>
      match r.elementRepr element i with
      | some e => (resolveSlots r element (i + 1) rest).map (e :: ·)
      | none => .error (element ++ " 不存在于键盘映射中")
  | i, .reference :: rest => resolveSlots r element (i + 1) rest

/-- The `match (element, index)` of `Constraints::new`, producing the list of
elements a rule applies to (or the configuration error it raises). -/
def resolveElements (r : Representation) (ac : AtomicConstraint) :
    Except String (List Element) :=
  match ac.element, ac.index with
  | some element, some index =>
      match r.elementRepr element index with
      | some e => .ok [e]
      | none => .error (element ++ " 不存在于键盘映射中")
  | none, some index => resolveByIndex r index r.mapping
  | some element, none =>
      match lookupAssoc r.mapping element with
      | some mapped => resolveSlots r element 0 mapped
      | none => .error ("约束中的元素 " ++ element ++ " 不在键盘映射中")
  | none, none => .error "约束必须至少提供 element 或 index 之一"

/-- Resolution of a rule's `keys` list through `key_repr`. -/
def resolveKeys (r : Representation) : List Char → Except String (List Key)
  | [] => .ok []
  | k :: rest =>
      match r.keyRepr k with
      | some key => (resolveKeys r rest).map (key :: ·)
      | none => .error "约束中的键不在键盘映射中"

/-- The `for element in elements` loop body of `Constraints::new`: with
`keys` present, resolve it, reject an empty resolution, and insert into
`narrowed` (overwriting); with `keys` absent, insert into `fixed`. -/
def applyToElements (r : Representation) (keys : Option (List Char)) :
    CState → List Element → Except String CState
  | st, [] => .ok st
  | st, e :: rest =>
      match keys with
      | some ks =>
          match resolveKeys r ks with
          | .error msg => .error msg
          | .ok transformed =>
              if transformed.length = 0 then .error "约束中的键列表不能为空"
              else
                applyToElements r keys
                  { st with narrowed := (e, transformed) :: st.narrowed } rest
      | none => applyToElements r keys { st with fixed := insertFixed e st.fixed } rest

/-- Processing of one `AtomicConstraint` of the `values` loop. -/
def applyRule (r : Representation) (st : CState) (ac : AtomicConstraint) :
    Except String CState :=
  match resolveElements r ac with
  | .error msg => .error msg
  | .ok es => applyToElements r ac.keys st es

/-- The main loop of `Constraints::new` over the gathered rule list. -/
def processValues (r : Representation) :
    CState → List AtomicConstraint → Except String CState
  | st, [] => .ok st
  | st, ac :: rest =>
      match applyRule r st ac with
      | .ok st' => processValues r st' rest
      | .error msg => .error msg

/-- The `values` list: the three optional rule lists appended in source
order (by-element, then by-index, then by-element-and-index). -/
def gatherValues (r : Representation) : List AtomicConstraint :=
  match r.constraints with
  | none => []
  | some c =>
      c.elements.getD [] ++ c.indices.getD [] ++ c.element_indices.getD []

/-- `Constraints::new`.  The alphabet resolution uses `filterMap`: the source
unwraps each lookup under the documented upstream guarantee that every
alphabet character resolves, so on inputs satisfying that precondition the
two agree. -/
def new (r : Representation) : Except String Constraints :=
  match processValues r ⟨[], []⟩ (gatherValues r) with
  | .error msg => .error msg
  | .ok st =>
      .ok { alphabet := r.alphabet.filterMap r.keyRepr
            elements := r.initialLen
            fixed := st.fixed
            narrowed := st.narrowed }

/-- `self.narrowed.get(&element).unwrap_or(&self.alphabet)`. -/
def destinations (c : Constraints) (e : Element) : List Key :=
  (lookupNarrowed c.narrowed e).getD c.alphabet

/-- `rand::seq::SliceRandom::choose` with the raw draw made explicit:
`none` exactly when the slice is empty (where the source's `.unwrap()`
panics), otherwise the element at the drawn position. -/
def chooseKey (l : List Key) (draw : Nat) : Option Key :=
  if l.length = 0 then none else some (l.getD (draw % l.length) 0)

/-- The rejection-sampling loop of `get_movable_element`, over an explicit
stream of raw draws from `[0, elements)`: return the first draw not in
`fixed`; `none` models a finite prefix of a non-terminating run. -/
def get_movable_element (c : Constraints) : List Nat → Option Element
  | [] => none
  | d :: ds => if d ∈ c.fixed then get_movable_element c ds else some d

/-- `get_swappable_element`, textually identical to `get_movable_element` in
the source. -/
def get_swappable_element (c : Constraints) : List Nat → Option Element
  | [] => none
  | d :: ds => if d ∈ c.fixed then get_swappable_element c ds else some d

/-- `swap_narrowed_elements`: each side is checked against the original
`map` and moved independently. -/
def swap_narrowed_elements (c : Constraints) (map : KeyMap)
    (element1 element2 : Element) : KeyMap :=
  let destinations1 := destinations c element1
  let destinations2 := destinations c element2
  let next := map
  let next := if map.getD element2 0 ∈ destinations1
    then next.set element1 (map.getD element2 0) else next
  let next := if map.getD element1 0 ∈ destinations2
    then next.set element2 (map.getD element1 0) else next
  next

/-- `constrained_random_swap`, with the two drawn swappable elements passed
explicitly. -/
def constrained_random_swap (c : Constraints) (map : KeyMap)
    (element1 element2 : Element) : KeyMap :=
  c.swap_narrowed_elements map element1 element2

/-- The `for (element, key) in map.iter().enumerate()` loop of
`constrained_full_key_swap`: `next` accumulates the writes while `element`
counts the position of `key` in the original `map`. -/
def full_swap_loop (c : Constraints) (key1 key2 : Key) :
    KeyMap → Nat → List Key → KeyMap
  | next, _, [] => next
  | next, element, key :: rest =>
      let next' :=
        if (key = key1 ∨ key = key2) ∧ element ∉ c.fixed then
          let destination := if key = key2 then key1 else key2
          if destination ∈ destinations c element
            then next.set element destination else next
        else next
      full_swap_loop c key1 key2 next' (element + 1) rest

/-- `constrained_full_key_swap`, with the drawn movable element and the raw
draw for the destination key passed explicitly; `none` models the panic of
the `.unwrap()` on an empty destination slice. -/
def constrained_full_key_swap (c : Constraints) (map : KeyMap)
    (movable_element : Element) (draw : Nat) : Option KeyMap :=
  let key1 := map.getD movable_element 0
  match chooseKey (destinations c movable_element) draw with
  | none => none
  | some key2 => some (full_swap_loop c key1 key2 map 0 map)

/-- `constrained_random_move`, with the drawn movable element and the raw
draw for the destination key passed explicitly; `none` models the panic of
the `.unwrap()` on an empty destination slice. -/
def constrained_random_move (c : Constraints) (map : KeyMap)
    (movable_element : Element) (draw : Nat) : Option KeyMap :=
  match chooseKey (destinations c movable_element) draw with
  | none => none
  | some key => some (map.set movable_element key)

/-- `constrained_random_move` with the rejection-sampling draw stream made
explicit (the composition the annealing controller actually runs). -/
def random_move_with_draws (c : Constraints) (map : KeyMap)
    (draws : List Nat) (draw : Nat) : Option KeyMap :=
  match get_movable_element c draws with
  | none => none
  | some e => constrained_random_move c map e draw

/-- `constrained_random_swap` with the two rejection-sampling draw streams
made explicit. -/
def random_swap_with_draws (c : Constraints) (map : KeyMap)
    (draws1 draws2 : List Nat) : Option KeyMap :=
  match get_swappable_element c draws1, get_swappable_element c draws2 with
  | some e1, some e2 => some (constrained_random_swap c map e1 e2)
  | _, _ => none

/-- `constrained_full_key_swap` with the rejection-sampling draw stream made
explicit. -/
def full_key_swap_with_draws (c : Constraints) (map : KeyMap)
    (draws : List Nat) (draw : Nat) : Option KeyMap :=
  match get_movable_element c draws with
  | none => none
  | some e => constrained_full_key_swap c map e draw

/-- The combined guard under which one iteration of the
`constrained_full_key_swap` loop writes position `j` (currently holding
`key`): `key` is on one of the two swapped keys, `j` is not fixed, and the
opposite key is a feasible destination for `j`. -/
abbrev swapCond (c : Constraints) (k1 k2 : Key) (j : Element) (key : Key) : Prop :=
  (key = k1 ∨ key = k2) ∧ j ∉ c.fixed ∧
    (if key = k2 then k1 else k2) ∈ destinations c j

/-- The destination the `constrained_full_key_swap` loop writes: the
opposite key of the pair. -/
def swapDest (k1 k2 key : Key) : Key :=
  if key = k2 then k1 else k2

/-- The key `chooseKey` returns on a successful draw. -/
def chosenKey (c : Constraints) (e : Element) (draw : Nat) : Key :=
  (destinations c e).getD (draw % (destinations c e).length) 0

/-- One mutation step of the annealing schedule, with all its raw random
draws recorded; used to state length preservation across arbitrary operator
sequences. -/
inductive Mutation where
  | move (draws : List Nat) (draw : Nat)
  | swap (draws1 draws2 : List Nat)
  | full (draws : List Nat) (draw : Nat)

/-- Application of one mutation operator with explicit draws; a failed
operator (exhausted draw stream or empty destination slice) leaves the
layout unchanged. -/
def applyMutation (c : Constraints) (map : KeyMap) : Mutation → KeyMap
  | .move draws draw => (random_move_with_draws c map draws draw).getD map
  | .swap draws1 draws2 => (random_swap_with_draws c map draws1 draws2).getD map
  | .full draws draw => (full_key_swap_with_draws c map draws draw).getD map

/-- Repeated application of an arbitrary sequence of mutation operators. -/
def applyMutations (c : Constraints) : KeyMap → List Mutation → KeyMap
  | map, [] => map
  | map, m :: ms => applyMutations c (applyMutation c map m) ms

/-- The state-independent success condition of a rule's `keys` processing:
every name resolves and the resolved list is non-empty. -/
def keysOk (r : Representation) (keys : Option (List Char)) : Bool :=
  match keys with
  | none => true
  | some ks =>
      match resolveKeys r ks with
      | .error _ => false
      | .ok transformed => transformed.length != 0

/-- The state-independent success condition of processing one rule: its
element resolution succeeds, and — only when it resolves to at least one
element — its `keys` list (when present) resolves to a non-empty key list. -/
def ruleOk (r : Representation) (ac : AtomicConstraint) : Bool :=
  match resolveElements r ac with
  | .error _ => false
  | .ok es => es.isEmpty || keysOk r ac.keys

/-- A small compiled constraint set used as concrete test data: alphabet
`[0, 1, 2, 3]`, four elements, element 0 fixed, element 1 narrowed to
`[2, 3]`. -/
def sampleC : Constraints := ⟨[0, 1, 2, 3], 4, [0], [(1, [2, 3])]⟩

/-- A concrete four-element layout. -/
def sampleMap : KeyMap := [0, 1, 2, 3]

/-- A representation whose single rule fixes every element (the whole
one-element scheme), showing compilation accepts a totally-fixed scheme. -/
def allFixedRep : Representation :=
  { initialLen := 1
    alphabet := ['a']
    keyRepr := fun ch => if ch = 'a' then some 0 else none
    elementRepr := fun name i => if name = "x" ∧ i = 0 then some 0 else none
    mapping := [("x", [.ascii 'a'])]
    constraints := some ⟨some [⟨some "x", none, none⟩], none, none⟩ }

/-- The compiled result of `allFixedRep`: its one element is fixed. -/
def allFixedC : Constraints := ⟨[0], 1, [0], []⟩

/-- A representation with an index-only rule whose `keys` list is empty but
which resolves to zero elements (no mapping entry has that code position),
so the per-element keys checks never run. -/
def c5Rep : Representation :=
  { initialLen := 1
    alphabet := ['a']
    keyRepr := fun ch => if ch = 'a' then some 0 else none
    elementRepr := fun _ _ => none
    mapping := []
    constraints := some ⟨none, some [⟨none, some 0, some []⟩], none⟩ }

/-- A representation with two keys-bearing rules naming the same element,
the later one listing `['b']`. -/
def c6Rep : Representation :=
  { initialLen := 2
    alphabet := ['a', 'b']
    keyRepr := fun ch =>
      if ch = 'a' then some 0 else if ch = 'b' then some 1 else none
    elementRepr := fun name i => if name = "x" ∧ i = 0 then some 0 else none
    mapping := [("x", [.ascii 'a'])]
    constraints := some ⟨some [⟨some "x", some 0, some ['a']⟩,
      ⟨some "x", some 0, some ['b']⟩], none, none⟩ }

/-- The compiled result of `c6Rep`: the later rule's list shadows the
earlier one in the association-list model of `narrowed`. -/
def c6C : Constraints := ⟨[0, 1], 2, [], [(0, [1]), (0, [0])]⟩

/-- A representation with an empty alphabet and no rules: compilation
accepts it, but its unconstrained element has an empty destination slice. -/
def c7Rep : Representation :=
  { initialLen := 1
    alphabet := []
    keyRepr := fun _ => none
    elementRepr := fun _ _ => none
    mapping := []
    constraints := none }

/-- The compiled result of `c7Rep`. -/
def c7C : Constraints := ⟨[], 1, [], []⟩

/-- A representation whose by-element list narrows element 0 to `['a']` and
whose by-element-and-index list narrows it to `['b']`. -/
def c9Rep : Representation :=
  { initialLen := 2
    alphabet := ['a', 'b']
    keyRepr := fun ch =>
      if ch = 'a' then some 0 else if ch = 'b' then some 1 else none
    elementRepr := fun name i => if name = "x" ∧ i = 0 then some 0 else none
    mapping := [("x", [.ascii 'a'])]
    constraints := some ⟨some [⟨some "x", some 0, some ['a']⟩], none,
      some [⟨some "x", some 0, some ['b']⟩]⟩ }

/-- The compiled result of `c9Rep`. -/
def c9C : Constraints := ⟨[0, 1], 2, [], [(0, [1]), (0, [0])]⟩

lemma chooseKey_eq_some {l : List Key} {draw : Nat} {k : Key}
    (h : chooseKey l draw = some k) :
    l ≠ [] ∧ k = l.getD (draw % l.length) 0 := by
  unfold chooseKey at h
  by_cases hl : l.length = 0
  · rw [if_pos hl] at h
    cases h
  · rw [if_neg hl] at h
    refine ⟨fun hnil => hl (by simp [hnil]), ?_⟩
    injection h with h
    exact h.symm

lemma chooseKey_mem {l : List Key} {draw : Nat} {k : Key}
    (h : chooseKey l draw = some k) : k ∈ l := by
  obtain ⟨hne, hk⟩ := chooseKey_eq_some h
  have hlen : 0 < l.length := List.length_pos.mpr hne
  have hlt : draw % l.length < l.length := Nat.mod_lt _ hlen
  subst hk
  rw [List.getD_eq_getElem?_getD, List.getElem?_eq_getElem hlt]
  exact List.getElem_mem hlt

lemma set_getD_self (l : List Nat) (i : Nat) : l.set i (l.getD i 0) = l := by
  rcases Nat.lt_or_ge i l.length with h | h
  · apply List.ext_getElem?
    intro j
    rw [List.getElem?_set]
    by_cases hij : i = j
    · subst hij
      simp [h, List.getD_eq_getElem?_getD, List.getElem?_eq_getElem h]
    · rw [if_neg hij]
  · exact List.set_eq_of_length_le h

lemma getD_eq_of_lt (l : List Nat) (i : Nat) (h : i < l.length) :
    l[i]? = some (l.getD i 0) := by
  rw [List.getD_eq_getElem?_getD, List.getElem?_eq_getElem h]
  rfl

lemma swap_self (c : Constraints) (map : KeyMap) (e : Element) :
    swap_narrowed_elements c map e e = map := by
  simp only [swap_narrowed_elements]
  by_cases h : map.getD e 0 ∈ destinations c e
  · simp only [if_pos h, List.set_set, set_getD_self]
  · simp only [if_neg h]

lemma swap_get?_other (c : Constraints) (map : KeyMap) (e1 e2 j : Element)
    (h1 : j ≠ e1) (h2 : j ≠ e2) :
    (swap_narrowed_elements c map e1 e2)[j]? = map[j]? := by
  simp only [swap_narrowed_elements]
  by_cases hb : map.getD e1 0 ∈ destinations c e2 <;>
  by_cases ha : map.getD e2 0 ∈ destinations c e1 <;>
  simp only [if_pos, if_neg, hb, ha, ite_true, ite_false,
    List.getElem?_set_ne (Ne.symm h1), List.getElem?_set_ne (Ne.symm h2)]

lemma swap_length (c : Constraints) (map : KeyMap) (e1 e2 : Element) :
    (swap_narrowed_elements c map e1 e2).length = map.length := by
  simp only [swap_narrowed_elements]
  by_cases hb : map.getD e1 0 ∈ destinations c e2 <;>
  by_cases ha : map.getD e2 0 ∈ destinations c e1 <;>
  simp only [if_pos, if_neg, hb, ha, ite_true, ite_false, List.length_set]

lemma swap_get?_left (c : Constraints) (map : KeyMap) (e1 e2 : Element)
    (hne : e1 ≠ e2) (h1 : e1 < map.length) :
    (swap_narrowed_elements c map e1 e2)[e1]? =
      some (if map.getD e2 0 ∈ destinations c e1
        then map.getD e2 0 else map.getD e1 0) := by
  simp only [swap_narrowed_elements]
  by_cases hb : map.getD e1 0 ∈ destinations c e2 <;>
  by_cases ha : map.getD e2 0 ∈ destinations c e1 <;>
  simp only [if_pos, if_neg, hb, ha, ite_true, ite_false,
    List.getElem?_set_ne (Ne.symm hne)]
  · rw [List.getElem?_set_eq_of_lt _ h1]
  · rw [getD_eq_of_lt _ _ h1]
  · rw [List.getElem?_set_eq_of_lt _ h1]
  · rw [getD_eq_of_lt _ _ h1]

lemma swap_get?_right (c : Constraints) (map : KeyMap) (e1 e2 : Element)
    (hne : e1 ≠ e2) (h2 : e2 < map.length) :
    (swap_narrowed_elements c map e1 e2)[e2]? =
      some (if map.getD e1 0 ∈ destinations c e2
        then map.getD e1 0 else map.getD e2 0) := by
  simp only [swap_narrowed_elements]
  by_cases hb : map.getD e1 0 ∈ destinations c e2 <;>
  by_cases ha : map.getD e2 0 ∈ destinations c e1 <;>
  simp only [if_pos, if_neg, hb, ha, ite_true, ite_false]
  · rw [List.getElem?_set_eq_of_lt]
    rw [List.length_set]
    exact h2
  · rw [List.getElem?_set_eq_of_lt _ h2]
  · rw [List.getElem?_set_ne hne, getD_eq_of_lt _ _ h2]
  · rw [getD_eq_of_lt _ _ h2]

/-- The body of one iteration of the `constrained_full_key_swap` loop,
rewritten from the nested source conditionals into the single guard
`swapCond`. -/
lemma full_swap_step_eq (c : Constraints) (k1 k2 : Key) (next : KeyMap)
    (n : Nat) (key : Key) :
    (if (key = k1 ∨ key = k2) ∧ n ∉ c.fixed then
      if (if key = k2 then k1 else k2) ∈ destinations c n
        then next.set n (if key = k2 then k1 else k2) else next
    else next) =
      (if swapCond c k1 k2 n key
        then next.set n (swapDest k1 k2 key) else next) := by
  simp only [swapCond, swapDest]
  by_cases hk2 : key = k2
  · simp only [if_pos hk2]
    split_ifs <;> first | rfl | tauto
  · simp only [if_neg hk2]
    split_ifs <;> first | rfl | tauto

/-- One iteration of the `constrained_full_key_swap` loop, rewritten from
the nested source conditionals into the single guard `swapCond`. -/
lemma full_swap_loop_cons (c : Constraints) (k1 k2 : Key) (next : KeyMap)
    (n : Nat) (key : Key) (rest : List Key) :
    full_swap_loop c k1 k2 next n (key :: rest) =
      full_swap_loop c k1 k2
        (if swapCond c k1 k2 n key
          then next.set n (swapDest k1 k2 key) else next)
        (n + 1) rest := by
  rw [show full_swap_loop c k1 k2 next n (key :: rest) =
      full_swap_loop c k1 k2
        (if (key = k1 ∨ key = k2) ∧ n ∉ c.fixed then
          if (if key = k2 then k1 else k2) ∈ destinations c n
            then next.set n (if key = k2 then k1 else k2) else next
        else next) (n + 1) rest from rfl,
    full_swap_step_eq]

lemma full_swap_loop_length (c : Constraints) (k1 k2 : Key) :
    ∀ (keys : List Key) (next : KeyMap) (n : Nat),
      (full_swap_loop c k1 k2 next n keys).length = next.length := by
  intro keys
  induction keys with
  | nil => intro next n; rfl
  | cons key rest ih =>
      intro next n
      rw [full_swap_loop_cons, ih]
      split
      · simp [List.length_set]
      · rfl

lemma full_swap_loop_get? (c : Constraints) (k1 k2 : Key) :
    ∀ (keys : List Key) (next : KeyMap) (n j : Nat),
      (full_swap_loop c k1 k2 next n keys)[j]? =
        if n ≤ j ∧ j - n < keys.length ∧ j < next.length ∧
            swapCond c k1 k2 j (keys.getD (j - n) 0)
          then some (swapDest k1 k2 (keys.getD (j - n) 0))
          else next[j]? := by
  intro keys
  induction keys with
  | nil =>
      intro next n j
      simp [full_swap_loop]
  | cons key rest ih =>
      intro next n j
      rw [full_swap_loop_cons, ih]
      by_cases hjn : j = n
      · subst hjn
        rw [if_neg (fun h => absurd h.1 (by omega))]
        have hgd : (key :: rest).getD (j - j) 0 = key := by
          simp
        rw [hgd]
        by_cases hc : swapCond c k1 k2 j key
        · rw [if_pos hc]
          by_cases hlt : j < next.length
          · rw [if_pos ⟨le_refl j, by simp, hlt, hc⟩,
              List.getElem?_set_eq_of_lt _ hlt]
          · rw [if_neg (fun h => hlt h.2.2.1),
              List.set_eq_of_length_le (by omega)]
        · rw [if_neg hc, if_neg (fun h => hc h.2.2.2)]
      · have hlen : (if swapCond c k1 k2 n key
            then next.set n (swapDest k1 k2 key) else next).length =
            next.length := by
          split
          · rw [List.length_set]
          · rfl
        have hget : (if swapCond c k1 k2 n key
            then next.set n (swapDest k1 k2 key) else next)[j]? = next[j]? := by
          split
          · exact List.getElem?_set_ne (Ne.symm hjn)
          · rfl
        rw [hlen, hget]
        by_cases hn : n ≤ j
        · have hj1 : n + 1 ≤ j := by omega
          have hd : j - n = (j - (n + 1)) + 1 := by omega
          rw [hd, List.getD_cons_succ]
          simp only [List.length_cons]
          have hiff : (n + 1 ≤ j ∧ j - (n + 1) < rest.length ∧
              j < next.length ∧ swapCond c k1 k2 j (rest.getD (j - (n + 1)) 0)) ↔
              (n ≤ j ∧ (j - (n + 1)) + 1 < rest.length + 1 ∧
              j < next.length ∧ swapCond c k1 k2 j (rest.getD (j - (n + 1)) 0)) := by
            constructor
            · rintro ⟨-, h2, h3, h4⟩
              exact ⟨hn, by omega, h3, h4⟩
            · rintro ⟨-, h2, h3, h4⟩
              exact ⟨hj1, by omega, h3, h4⟩
          rw [if_congr hiff rfl rfl]
        · rw [if_neg (fun h => hn (Nat.le_of_succ_le h.1)),
            if_neg (fun h => hn h.1)]

lemma full_key_swap_eq_some {c : Constraints} {map : KeyMap} {e : Element}
    {draw : Nat} {next : KeyMap}
    (h : constrained_full_key_swap c map e draw = some next) :
    ∃ key2, chooseKey (destinations c e) draw = some key2 ∧
      next = full_swap_loop c (map.getD e 0) key2 map 0 map := by
  unfold constrained_full_key_swap at h
  cases hck : chooseKey (destinations c e) draw with
  | none => rw [hck] at h; cases h
  | some key2 =>
      rw [hck] at h
      injection h with h
      exact ⟨key2, rfl, h.symm⟩

/-- Pointwise characterization of a successful `constrained_full_key_swap`:
there is a drawn destination key `key2` from the movable element's feasible
set, and every position `j` either satisfies the write guard (its key is on
the swapped pair, it is not fixed, and the opposite key is feasible for it)
and moves to the opposite key, or is left unchanged. -/
lemma full_key_swap_char (c : Constraints) (map : KeyMap) (e : Element)
    (draw : Nat) (next : KeyMap)
    (h : constrained_full_key_swap c map e draw = some next) :
    ∃ key2, key2 ∈ destinations c e ∧ next.length = map.length ∧
      ∀ j, next[j]? =
        if j < map.length ∧ swapCond c (map.getD e 0) key2 j (map.getD j 0)
          then some (swapDest (map.getD e 0) key2 (map.getD j 0))
          else map[j]? := by
  obtain ⟨key2, hck, rfl⟩ := full_key_swap_eq_some h
  refine ⟨key2, chooseKey_mem hck, full_swap_loop_length _ _ _ _ _ _, fun j => ?_⟩
  rw [full_swap_loop_get?]
  simp only [Nat.sub_zero, Nat.zero_le, true_and]
  exact if_congr ⟨fun hc => ⟨hc.1, hc.2.2⟩, fun hc => ⟨hc.1, hc.1, hc.2⟩⟩ rfl rfl

lemma random_move_eq_some {c : Constraints} {map : KeyMap} {e : Element}
    {draw : Nat} {next : KeyMap}
    (h : constrained_random_move c map e draw = some next) :
    ∃ key, chooseKey (destinations c e) draw = some key ∧
      next = map.set e key := by
  unfold constrained_random_move at h
  cases hck : chooseKey (destinations c e) draw with
  | none => rw [hck] at h; cases h
  | some key =>
      rw [hck] at h
      injection h with h
      exact ⟨key, rfl, h.symm⟩

/-- A position changed by `swap_narrowed_elements` holds a key from its own
feasible destination set. -/
lemma swap_changed_dest (c : Constraints) (map : KeyMap) (e1 e2 i : Element)
    (hch : (swap_narrowed_elements c map e1 e2)[i]? ≠ map[i]?) :
    ∃ k, (swap_narrowed_elements c map e1 e2)[i]? = some k ∧
      k ∈ destinations c i := by
  rcases eq_or_ne e1 e2 with h12 | h12
  · rw [h12, swap_self] at hch
    exact absurd rfl hch
  rcases eq_or_ne i e1 with hi1 | hi1
  · subst hi1
    by_cases hlt : i < map.length
    · rw [swap_get?_left c map i e2 h12 hlt] at hch ⊢
      by_cases hmem : map.getD e2 0 ∈ destinations c i
      · rw [if_pos hmem] at hch ⊢
        exact ⟨_, rfl, hmem⟩
      · rw [if_neg hmem] at hch
        rw [getD_eq_of_lt _ _ hlt] at hch
        exact absurd rfl hch
    · exfalso
      apply hch
      simp only [swap_narrowed_elements]
      have hset : map.set i (map.getD e2 0) = map :=
        List.set_eq_of_length_le (Nat.le_of_not_lt hlt)
      by_cases hb : map.getD i 0 ∈ destinations c e2 <;>
      by_cases ha : map.getD e2 0 ∈ destinations c i <;>
      simp only [if_pos, if_neg, ha, hb, ite_true, ite_false, hset] <;>
      first
        | rfl
        | exact List.getElem?_set_ne (fun h => h12 h.symm)
  rcases eq_or_ne i e2 with hi2 | hi2
  · subst hi2
    by_cases hlt : i < map.length
    · rw [swap_get?_right c map e1 i h12 hlt] at hch ⊢
      by_cases hmem : map.getD e1 0 ∈ destinations c i
      · rw [if_pos hmem] at hch ⊢
        exact ⟨_, rfl, hmem⟩
      · rw [if_neg hmem] at hch
        rw [getD_eq_of_lt _ _ hlt] at hch
        exact absurd rfl hch
    · exfalso
      apply hch
      simp only [swap_narrowed_elements]
      by_cases hb : map.getD e1 0 ∈ destinations c i
      · by_cases ha : map.getD i 0 ∈ destinations c e1
        · simp only [hb, ha, ite_true]
          rw [List.set_eq_of_length_le
            (by rw [List.length_set]; exact Nat.le_of_not_lt hlt)]
          exact List.getElem?_set_ne h12
        · simp only [hb, ha, ite_true, ite_false]
          rw [List.set_eq_of_length_le (Nat.le_of_not_lt hlt)]
      · by_cases ha : map.getD i 0 ∈ destinations c e1
        · simp only [hb, ha, ite_true, ite_false]
          exact List.getElem?_set_ne h12
        · simp only [hb, ha, ite_false]
  · exact absurd (swap_get?_other c map e1 e2 i hi1 hi2) hch

lemma processValues_append (r : Representation) (l1 l2 : List AtomicConstraint) :
    ∀ st, processValues r st (l1 ++ l2) =
      match processValues r st l1 with
      | .ok st' => processValues r st' l2
      | .error msg => .error msg := by
  induction l1 with
  | nil => intro st; rfl
  | cons ac rest ih =>
      intro st
      simp only [List.cons_append, processValues]
      cases applyRule r st ac with
      | ok st' => exact ih st'
      | error msg => rfl

lemma applyToElements_isOk (r : Representation) (keys : Option (List Char)) :
    ∀ (es : List Element) (st : CState),
      (applyToElements r keys st es).isOk = true ↔
        (es = [] ∨ keysOk r keys = true) := by
  intro es
  induction es with
  | nil =>
      intro st
      simp [applyToElements, Except.isOk, Except.toBool]
  | cons e rest ih =>
      intro st
      cases keys with
      | none =>
          simp only [applyToElements]
          rw [ih]
          simp [keysOk]
      | some ks =>
          cases hrk : resolveKeys r ks with
          | error msg =>
              simp [applyToElements, hrk, Except.isOk, Except.toBool, keysOk]
          | ok transformed =>
              by_cases hlen : transformed.length = 0
              · simp [applyToElements, hrk, hlen, Except.isOk, Except.toBool,
                  keysOk]
              · simp only [applyToElements, hrk]
                rw [if_neg hlen, ih]
                simp [keysOk, hrk, hlen]

lemma applyRule_isOk (r : Representation) (st : CState) (ac : AtomicConstraint) :
    (applyRule r st ac).isOk = true ↔ ruleOk r ac := by
  unfold applyRule ruleOk
  cases hre : resolveElements r ac with
  | error msg => simp [Except.isOk, Except.toBool]
  | ok es =>
      rw [applyToElements_isOk r ac.keys es st]
      simp [List.isEmpty_iff]

lemma processValues_isOk (r : Representation) :
    ∀ (l : List AtomicConstraint) (st : CState),
      (processValues r st l).isOk = true ↔ ∀ ac ∈ l, ruleOk r ac = true := by
  intro l
  induction l with
  | nil =>
      intro st
      simp [processValues, Except.isOk, Except.toBool]
  | cons ac rest ih =>
      intro st
      simp only [processValues]
      cases hra : applyRule r st ac with
      | error msg =>
          have hnot : ¬ ruleOk r ac = true := by
            intro hr
            have h := (applyRule_isOk r st ac).mpr hr
            rw [hra] at h
            cases h
          simp [Except.isOk, Except.toBool, List.forall_mem_cons, hnot]
      | ok st' =>
          have hok : ruleOk r ac = true := by
            have h := applyRule_isOk r st ac
            rw [hra] at h
            exact h.mp rfl
          rw [ih st']
          simp [List.forall_mem_cons, hok]

/-- Compilation succeeds exactly when every gathered rule satisfies the
state-independent `ruleOk` condition. -/
lemma new_isOk (r : Representation) :
    (Constraints.new r).isOk = true ↔ ∀ ac ∈ gatherValues r, ruleOk r ac = true := by
  have h := processValues_isOk r (gatherValues r) ⟨[], []⟩
  unfold new
  cases hpv : processValues r ⟨[], []⟩ (gatherValues r) with
  | error msg =>
      rw [hpv] at h
      simpa [Except.isOk, Except.toBool] using h
  | ok st =>
      rw [hpv] at h
      simpa [Except.isOk, Except.toBool] using h

/-- When the last gathered rule names an element and an index and carries a
non-empty resolving key list, the compiled `narrowed` entry of that element
is exactly that rule's resolved list, whatever any earlier rule put there:
`HashMap::insert` overwrites. -/
lemma new_narrowed_last (r : Representation) (vs : List AtomicConstraint)
    (n2 : String) (i2 : Nat) (ks2 : List Char) (e : Element) (L2 : List Key)
    (c : Constraints)
    (hvals : gatherValues r = vs ++ [⟨some n2, some i2, some ks2⟩])
    (he : r.elementRepr n2 i2 = some e)
    (hks : resolveKeys r ks2 = .ok L2)
    (hne : L2 ≠ [])
    (hnew : Constraints.new r = .ok c) :
    lookupNarrowed c.narrowed e = some L2 := by
  unfold new at hnew
  rw [hvals, processValues_append] at hnew
  cases hpv : processValues r ⟨[], []⟩ vs with
  | error msg => rw [hpv] at hnew; cases hnew
  | ok st1 =>
      rw [hpv] at hnew
      simp only [processValues, applyRule, resolveElements, he, applyToElements,
        hks] at hnew
      rw [if_neg (fun h => hne (List.length_eq_zero.mp h))] at hnew
      injection hnew with hnew
      rw [← hnew]
      simp [lookupNarrowed]

lemma mem_insertFixed_self (e : Element) (s : List Element) :
    e ∈ insertFixed e s := by
  unfold insertFixed
  split
  · assumption
  · exact List.mem_cons_self e s

lemma subset_insertFixed (e : Element) (s : List Element) :
    s ⊆ insertFixed e s := by
  unfold insertFixed
  split
  · exact fun _ hx => hx
  · exact fun x hx => List.mem_cons_of_mem e hx

/-- Processing a keys-absent rule body inserts every resolved element into
`fixed` and leaves `narrowed` untouched. -/
lemma applyToElements_none (r : Representation) :
    ∀ (es : List Element) (st st' : CState),
      applyToElements r none st es = .ok st' →
      st'.narrowed = st.narrowed ∧ st.fixed ⊆ st'.fixed ∧
        ∀ e ∈ es, e ∈ st'.fixed := by
  intro es
  induction es with
  | nil =>
      intro st st' h
      injection h with h
      subst h
      exact ⟨rfl, fun _ hx => hx, by simp⟩
  | cons e rest ih =>
      intro st st' h
      simp only [applyToElements] at h
      obtain ⟨h1, h2, h3⟩ := ih _ _ h
      refine ⟨h1, fun x hx => h2 (subset_insertFixed e st.fixed hx), ?_⟩
      intro x hx
      rcases List.mem_cons.mp hx with rfl | hx
      · exact h2 (mem_insertFixed_self x st.fixed)
      · exact h3 x hx

/-- C1: for every compiled `Constraints` and every input layout, each of the
three mutation operators (`constrained_random_move`,
`constrained_random_swap`, `constrained_full_key_swap`) returns a layout in
which every element of the fixed set keeps exactly the key it had in the
input layout (the drawn elements being movable/swappable, i.e. not fixed,
as the rejection-sampling draw guarantees). -/
theorem c1_fixed_elements_keep_keys (c : Constraints) (map : KeyMap)
    (e e1 e2 : Element) (draw : Nat) (f : Element) (hf : f ∈ c.fixed)
    (he : e ∉ c.fixed) (he1 : e1 ∉ c.fixed) (he2 : e2 ∉ c.fixed) :
    (∀ next, constrained_random_move c map e draw = some next →
      next[f]? = map[f]?) ∧
    ((constrained_random_swap c map e1 e2)[f]? = map[f]?) ∧
    (∀ next, constrained_full_key_swap c map e draw = some next →
      next[f]? = map[f]?) := by
  refine ⟨?_, ?_, ?_⟩
  · intro next h
    obtain ⟨key, hck, rfl⟩ := random_move_eq_some h
    exact List.getElem?_set_ne (fun hef => he (by rw [hef]; exact hf))
  · exact swap_get?_other c map e1 e2 f
      (fun hh => he1 (hh ▸ hf)) (fun hh => he2 (hh ▸ hf))
  · intro next h
    obtain ⟨key2, -, -, hchar⟩ := full_key_swap_char c map e draw next h
    rw [hchar f, if_neg (fun hc => hc.2.2.1 hf)]

/-- Witness for C1 at `sampleC` (element 0 fixed) and `sampleMap`. -/
theorem c1_fixed_elements_keep_keys_witness :
    constrained_random_move sampleC sampleMap 1 0 = some [0, 2, 2, 3] ∧
    ([0, 2, 2, 3] : KeyMap)[0]? = sampleMap[0]? ∧
    (constrained_random_swap sampleC sampleMap 2 3)[0]? = sampleMap[0]? ∧
    constrained_full_key_swap sampleC sampleMap 1 0 = some [0, 2, 1, 3] ∧
    ([0, 2, 1, 3] : KeyMap)[0]? = sampleMap[0]? := by
  have h := c1_fixed_elements_keep_keys sampleC sampleMap 1 2 3 0 0
    (by decide) (by decide) (by decide) (by decide)
  exact ⟨by decide, h.1 _ (by decide), h.2.1, by decide, h.2.2 _ (by decide)⟩

/-- C2: whenever a mutation operator changes the key of an element that has
a `narrowed` entry, the new key belongs to that entry's list. -/
theorem c2_narrowed_always_respected (c : Constraints) (map : KeyMap)
    (e e1 e2 : Element) (draw : Nat) (i : Element) (L : List Key)
    (hL : lookupNarrowed c.narrowed i = some L) :
    (∀ next, constrained_random_move c map e draw = some next →
      next[i]? ≠ map[i]? → ∃ k, next[i]? = some k ∧ k ∈ L) ∧
    ((constrained_random_swap c map e1 e2)[i]? ≠ map[i]? →
      ∃ k, (constrained_random_swap c map e1 e2)[i]? = some k ∧ k ∈ L) ∧
    (∀ next, constrained_full_key_swap c map e draw = some next →
      next[i]? ≠ map[i]? → ∃ k, next[i]? = some k ∧ k ∈ L) := by
  have hdest : destinations c i = L := by
    unfold destinations
    rw [hL]
    rfl
  refine ⟨?_, ?_, ?_⟩
  · intro next h hch
    obtain ⟨key, hck, rfl⟩ := random_move_eq_some h
    rcases eq_or_ne i e with rfl | hie
    · by_cases hlt : i < map.length
      · refine ⟨key, List.getElem?_set_eq_of_lt _ hlt, ?_⟩
        rw [← hdest]
        exact chooseKey_mem hck
      · rw [List.set_eq_of_length_le (Nat.le_of_not_lt hlt)] at hch
        exact absurd rfl hch
    · rw [List.getElem?_set_ne (Ne.symm hie)] at hch
      exact absurd rfl hch
  · intro hch
    obtain ⟨k, hk, hkd⟩ := swap_changed_dest c map e1 e2 i hch
    exact ⟨k, hk, hdest ▸ hkd⟩
  · intro next h hch
    obtain ⟨key2, -, -, hchar⟩ := full_key_swap_char c map e draw next h
    rw [hchar i] at hch ⊢
    by_cases hc : i < map.length ∧
        swapCond c (map.getD e 0) key2 i (map.getD i 0)
    · rw [if_pos hc]
      refine ⟨_, rfl, ?_⟩
      rw [← hdest]
      have hmem := hc.2.2.2
      simpa [swapDest] using hmem
    · rw [if_neg hc] at hch
      exact absurd rfl hch

/-- Witness for C2 at `sampleC` (element 1 narrowed to `[2, 3]`). -/
theorem c2_narrowed_always_respected_witness :
    (∃ k, (([0, 2, 2, 3] : KeyMap))[1]? = some k ∧ k ∈ [2, 3]) ∧
    (∃ k, (constrained_random_swap sampleC sampleMap 1 2)[1]? = some k ∧
      k ∈ [2, 3]) ∧
    (∃ k, ([0, 2, 1, 3] : KeyMap)[1]? = some k ∧ k ∈ [2, 3]) := by
  have h := c2_narrowed_always_respected sampleC sampleMap 1 1 2 0 1 [2, 3]
    (by decide)
  exact ⟨h.1 [0, 2, 2, 3] (by decide) (by decide),
    h.2.1 (by decide), h.2.2 [0, 2, 1, 3] (by decide) (by decide)⟩

/-- C3: `constrained_random_swap` with drawn non-fixed elements `e1`, `e2`
checks each side independently against the original layout — `e1` moves to
`map[e2]` exactly when that key is in `e1`'s feasible destination set
(`narrowed[e1]` if present, else the alphabet) and stays otherwise, and
symmetrically for `e2`; all other positions are unchanged, and when the two
draws coincide the input layout is returned unchanged. -/
theorem c3_swap_independent_sides (c : Constraints) (map : KeyMap)
    (e1 e2 : Element) (he1 : e1 ∉ c.fixed) (he2 : e2 ∉ c.fixed)
    (h1 : e1 < map.length) (h2 : e2 < map.length) :
    (e1 ≠ e2 →
      (constrained_random_swap c map e1 e2)[e1]? =
        some (if map.getD e2 0 ∈ destinations c e1
          then map.getD e2 0 else map.getD e1 0) ∧
      (constrained_random_swap c map e1 e2)[e2]? =
        some (if map.getD e1 0 ∈ destinations c e2
          then map.getD e1 0 else map.getD e2 0) ∧
      (∀ j, j ≠ e1 → j ≠ e2 →
        (constrained_random_swap c map e1 e2)[j]? = map[j]?)) ∧
    (e1 = e2 → constrained_random_swap c map e1 e2 = map) := by
  constructor
  · intro hne
    exact ⟨swap_get?_left c map e1 e2 hne h1,
      swap_get?_right c map e1 e2 hne h2,
      fun j hj1 hj2 => swap_get?_other c map e1 e2 j hj1 hj2⟩
  · intro h
    rw [h]
    exact swap_self c map e2

/-- Witness for C3: at `sampleC`, element 1 (narrowed to `[2, 3]`) cannot
take element 2's key is false — key 2 is allowed — while the asymmetric
case appears at elements 1 and 0's keys; checked here at `e1 = 1`,
`e2 = 2` and at the coinciding draw `e1 = e2 = 2`. -/
theorem c3_swap_independent_sides_witness :
    ((constrained_random_swap sampleC sampleMap 1 2)[1]? =
      some (if sampleMap.getD 2 0 ∈ destinations sampleC 1
        then sampleMap.getD 2 0 else sampleMap.getD 1 0)) ∧
    constrained_random_swap sampleC sampleMap 2 2 = sampleMap := by
  refine ⟨?_, ?_⟩
  · exact (c3_swap_independent_sides sampleC sampleMap 1 2 (by decide)
      (by decide) (by decide) (by decide)).1 (by decide) |>.1
  · exact (c3_swap_independent_sides sampleC sampleMap 2 2 (by decide)
      (by decide) (by decide) (by decide)).2 rfl

lemma get_movable_element_none (c : Constraints)
    (hall : ∀ i, i < c.elements → i ∈ c.fixed) :
    ∀ draws, (∀ x ∈ draws, x < c.elements) →
      get_movable_element c draws = none := by
  intro draws
  induction draws with
  | nil => intro _; rfl
  | cons d ds ih =>
      intro hd
      unfold get_movable_element
      rw [if_pos (hall d (hd d (List.mem_cons_self d ds)))]
      exact ih (fun x hx => hd x (List.mem_cons_of_mem d hx))

lemma get_swappable_element_none (c : Constraints)
    (hall : ∀ i, i < c.elements → i ∈ c.fixed) :
    ∀ draws, (∀ x ∈ draws, x < c.elements) →
      get_swappable_element c draws = none := by
  intro draws
  induction draws with
  | nil => intro _; rfl
  | cons d ds ih =>
      intro hd
      unfold get_swappable_element
      rw [if_pos (hall d (hd d (List.mem_cons_self d ds)))]
      exact ih (fun x hx => hd x (List.mem_cons_of_mem d hx))

lemma random_move_length {c : Constraints} {map : KeyMap} {e : Element}
    {draw : Nat} {next : KeyMap}
    (h : constrained_random_move c map e draw = some next) :
    next.length = map.length := by
  obtain ⟨key, -, rfl⟩ := random_move_eq_some h
  exact List.length_set _ _ _

lemma full_key_swap_length {c : Constraints} {map : KeyMap} {e : Element}
    {draw : Nat} {next : KeyMap}
    (h : constrained_full_key_swap c map e draw = some next) :
    next.length = map.length := by
  obtain ⟨key2, -, hlen, -⟩ := full_key_swap_char c map e draw next h
  exact hlen

lemma random_move_with_draws_length {c : Constraints} {map : KeyMap}
    {draws : List Nat} {draw : Nat} {next : KeyMap}
    (h : random_move_with_draws c map draws draw = some next) :
    next.length = map.length := by
  unfold random_move_with_draws at h
  cases hg : get_movable_element c draws with
  | none => rw [hg] at h; cases h
  | some e => rw [hg] at h; exact random_move_length h

lemma random_swap_with_draws_length {c : Constraints} {map : KeyMap}
    {draws1 draws2 : List Nat} {next : KeyMap}
    (h : random_swap_with_draws c map draws1 draws2 = some next) :
    next.length = map.length := by
  unfold random_swap_with_draws at h
  cases hg1 : get_swappable_element c draws1 with
  | none => rw [hg1] at h; cases h
  | some e1 =>
      cases hg2 : get_swappable_element c draws2 with
      | none => rw [hg1, hg2] at h; cases h
      | some e2 =>
          rw [hg1, hg2] at h
          injection h with h
          rw [← h]
          exact swap_length c map e1 e2

lemma full_key_swap_with_draws_length {c : Constraints} {map : KeyMap}
    {draws : List Nat} {draw : Nat} {next : KeyMap}
    (h : full_key_swap_with_draws c map draws draw = some next) :
    next.length = map.length := by
  unfold full_key_swap_with_draws at h
  cases hg : get_movable_element c draws with
  | none => rw [hg] at h; cases h
  | some e => rw [hg] at h; exact full_key_swap_length h

lemma applyMutation_length (c : Constraints) (map : KeyMap) (m : Mutation) :
    (applyMutation c map m).length = map.length := by
  cases m with
  | move draws draw =>
      simp only [applyMutation]
      cases hx : random_move_with_draws c map draws draw with
      | none => rfl
      | some next => exact random_move_with_draws_length hx
  | swap draws1 draws2 =>
      simp only [applyMutation]
      cases hx : random_swap_with_draws c map draws1 draws2 with
      | none => rfl
      | some next => exact random_swap_with_draws_length hx
  | full draws draw =>
      simp only [applyMutation]
      cases hx : full_key_swap_with_draws c map draws draw with
      | none => rfl
      | some next => exact full_key_swap_with_draws_length hx

lemma applyMutations_length (c : Constraints) :
    ∀ (ms : List Mutation) (map : KeyMap),
      (applyMutations c map ms).length = map.length := by
  intro ms
  induction ms with
  | nil => intro map; rfl
  | cons m rest ih =>
      intro map
      unfold applyMutations
      rw [ih (applyMutation c map m), applyMutation_length]

/-- C4: if `fixed` covers every element index, the movable/swappable draw
loops never return — every finite stream of in-range draws is exhausted
without an answer — so every operator composed with the draw diverges;
compilation does not reject such a configuration (`allFixedRep` compiles to
the all-fixed `allFixedC`); and a draw landing on a non-fixed index is
returned immediately. -/
theorem c4_all_fixed_divergence (c : Constraints) (map : KeyMap)
    (draws draws2 : List Nat) (d : Nat) (ds : List Nat) (draw : Nat) :
    ((∀ i, i < c.elements → i ∈ c.fixed) → (∀ x ∈ draws, x < c.elements) →
      get_movable_element c draws = none ∧
      get_swappable_element c draws = none ∧
      random_move_with_draws c map draws draw = none ∧
      random_swap_with_draws c map draws draws2 = none ∧
      full_key_swap_with_draws c map draws draw = none) ∧
    (d ∉ c.fixed →
      get_movable_element c (d :: ds) = some d ∧
      get_swappable_element c (d :: ds) = some d) ∧
    (Constraints.new allFixedRep = .ok allFixedC ∧
      ∀ i, i < allFixedC.elements → i ∈ allFixedC.fixed) := by
  refine ⟨fun hall hdr => ?_, fun hd => ?_, rfl, fun i hi => ?_⟩
  · have hmv := get_movable_element_none c hall draws hdr
    have hsw := get_swappable_element_none c hall draws hdr
    refine ⟨hmv, hsw, ?_, ?_, ?_⟩
    · unfold random_move_with_draws
      rw [hmv]
    · unfold random_swap_with_draws
      rw [hsw]
    · unfold full_key_swap_with_draws
      rw [hmv]
  · exact ⟨by unfold get_movable_element; rw [if_neg hd],
      by unfold get_swappable_element; rw [if_neg hd]⟩
  · have h0 : i = 0 := Nat.lt_one_iff.mp hi
    rw [h0]
    decide

/-- Witness for C4 at the all-fixed compiled constraints `allFixedC`. -/
theorem c4_all_fixed_divergence_witness :
    get_movable_element allFixedC [0, 0] = none ∧
    random_move_with_draws allFixedC [5] [0, 0] 0 = none ∧
    random_swap_with_draws allFixedC [5] [0, 0] [0, 0] = none ∧
    full_key_swap_with_draws allFixedC [5] [0, 0] 0 = none ∧
    get_movable_element allFixedC (1 :: []) = some 1 := by
  have h := c4_all_fixed_divergence allFixedC [5] [0, 0] [0, 0] 1 [] 0
  have hall : ∀ i, i < allFixedC.elements → i ∈ allFixedC.fixed := h.2.2.2
  have hdr : ∀ x ∈ [0, 0], x < allFixedC.elements := by decide
  exact ⟨(h.1 hall hdr).1, (h.1 hall hdr).2.2.1, (h.1 hall hdr).2.2.2.1,
    (h.1 hall hdr).2.2.2.2, (h.2.1 (by decide)).1⟩

/-- C5 counterexample: `c5Rep` carries a rule whose `keys` list is empty
(and literally resolves to the empty key list), yet compilation succeeds,
because the rule resolves to zero elements and the per-element keys checks
never run — refuting the claim that `Constraints::new` errors whenever any
rule's keys list resolves to empty. -/
theorem c5_counterexample :
    (gatherValues c5Rep).any (fun ac => ac.keys == some []) = true ∧
    (Constraints.new c5Rep).isOk = true :=
  ⟨by decide, by decide⟩

/-- C5 (amended): compilation succeeds exactly when every gathered rule
satisfies `ruleOk` — its element resolution succeeds and, when it resolves
to at least one element, its keys list (when present) resolves with known
names to a non-empty list.  In particular a rule with neither `element` nor
`index` always fails compilation, and a rule resolving to at least one
element whose keys check fails always fails compilation; the keys checks of
a rule resolving to zero elements are skipped. -/
theorem c5_compile_error_conditions (r : Representation) :
    ((Constraints.new r).isOk = true ↔
      ∀ ac ∈ gatherValues r, ruleOk r ac = true) ∧
    (∀ ac ∈ gatherValues r, ac.element = none → ac.index = none →
      (Constraints.new r).isOk = false) ∧
    (∀ ac ∈ gatherValues r, ∀ es, resolveElements r ac = .ok es → es ≠ [] →
      keysOk r ac.keys = false → (Constraints.new r).isOk = false) := by
  refine ⟨new_isOk r, ?_, ?_⟩
  · intro ac hmem hel hidx
    cases hb : (Constraints.new r).isOk with
    | false => rfl
    | true =>
        exfalso
        have hr := (new_isOk r).mp hb ac hmem
        simp [ruleOk, resolveElements, hel, hidx] at hr
  · intro ac hmem es hres hne hko
    cases hb : (Constraints.new r).isOk with
    | false => rfl
    | true =>
        exfalso
        have hr := (new_isOk r).mp hb ac hmem
        simp only [ruleOk, hres] at hr
        rw [hko, Bool.or_false] at hr
        exact hne (List.isEmpty_iff.mp hr)

/-- Witness for the amended C5: `allFixedRep`'s single rule passes every
check, and compilation indeed succeeds. -/
theorem c5_compile_error_conditions_witness :
    (Constraints.new allFixedRep).isOk = true :=
  (c5_compile_error_conditions allFixedRep).1.mpr (by decide)

/-- C6: when two rules in processing order resolve to the same element and
both carry `keys`, the `narrowed` entry stored after compilation is exactly
the later rule's resolved key list — the earlier list is replaced, not
merged (stated with the later rule last in the gathered sequence and the
earlier rule anywhere before it). -/
theorem c6_last_write_wins (r : Representation) (vs1 : List AtomicConstraint)
    (r1 : AtomicConstraint) (es1 : List Element) (ks1 : List Char)
    (n2 : String) (i2 : Nat) (ks2 : List Char) (e : Element) (L2 : List Key)
    (c : Constraints)
    (hvals : gatherValues r = vs1 ++ [⟨some n2, some i2, some ks2⟩])
    (hr1 : r1 ∈ vs1) (hk1 : r1.keys = some ks1)
    (hres1 : resolveElements r r1 = .ok es1) (he1 : e ∈ es1)
    (he : r.elementRepr n2 i2 = some e)
    (hks : resolveKeys r ks2 = .ok L2) (hne : L2 ≠ [])
    (hnew : Constraints.new r = .ok c) :
    lookupNarrowed c.narrowed e = some L2 :=
  new_narrowed_last r vs1 n2 i2 ks2 e L2 c hvals he hks hne hnew

/-- Witness for C6 at `c6Rep`: the element narrowed to `['a']` then `['b']`
compiles with `narrowed` lookup `[1]` (the key of `'b'`). -/
theorem c6_last_write_wins_witness :
    lookupNarrowed c6C.narrowed 0 = some [1] :=
  c6_last_write_wins c6Rep [⟨some "x", some 0, some ['a']⟩]
    ⟨some "x", some 0, some ['a']⟩ [0] ['a'] "x" 0 ['b'] 0 [1] c6C
    rfl (by decide) rfl rfl (by decide) (by decide) rfl (by decide) rfl

/-- C7 counterexample: a compiled `Constraints` with an empty alphabet and
an unconstrained element makes `constrained_random_move` fail (the modelled
`.unwrap()` panic on the empty destination slice) — the operation does not
always succeed. -/
theorem c7_counterexample :
    Constraints.new c7Rep = .ok c7C ∧
    constrained_random_move c7C [5] 0 0 = none :=
  ⟨rfl, by decide⟩

/-- C7 (amended): `constrained_random_move` changes at most the drawn
element's entry — every other index is unchanged and the drawn element
receives a key from its feasible destination set — and it succeeds whenever
that destination set is non-empty (always the case for a narrowed element,
since compilation rejects empty key lists; only an unconstrained element
with an empty alphabet fails). -/
theorem c7_random_move_frame (c : Constraints) (map : KeyMap) (e : Element)
    (draw : Nat) :
    (destinations c e ≠ [] →
      (constrained_random_move c map e draw).isSome = true) ∧
    (∀ next, constrained_random_move c map e draw = some next →
      next.length = map.length ∧
      (∀ i, i ≠ e → next[i]? = map[i]?) ∧
      (e < map.length → ∃ k, next[e]? = some k ∧ k ∈ destinations c e)) := by
  constructor
  · intro hne
    unfold constrained_random_move chooseKey
    rw [if_neg (fun h => hne (List.length_eq_zero.mp h))]
    rfl
  · intro next h
    obtain ⟨key, hck, rfl⟩ := random_move_eq_some h
    exact ⟨List.length_set _ _ _,
      fun i hi => List.getElem?_set_ne (Ne.symm hi),
      fun hlt => ⟨key, List.getElem?_set_eq_of_lt _ hlt, chooseKey_mem hck⟩⟩

/-- Witness for the amended C7 at `sampleC`. -/
theorem c7_random_move_frame_witness :
    (constrained_random_move sampleC sampleMap 1 0).isSome = true ∧
    ([0, 2, 2, 3] : KeyMap).length = sampleMap.length ∧
    (∃ k, (([0, 2, 2, 3] : KeyMap))[1]? = some k ∧
      k ∈ destinations sampleC 1) := by
  have h := c7_random_move_frame sampleC sampleMap 1 0
  exact ⟨h.1 (by decide), (h.2 [0, 2, 2, 3] (by decide)).1,
    (h.2 [0, 2, 2, 3] (by decide)).2.2 (by decide)⟩

/-- C8: all three mutation operators return a layout of the input layout's
length, and hence the length is preserved across arbitrarily many repeated
applications of any sequence of the operators. -/
theorem c8_length_preserved (c : Constraints) (map : KeyMap)
    (e e1 e2 : Element) (draw : Nat) (ms : List Mutation) :
    (∀ next, constrained_random_move c map e draw = some next →
      next.length = map.length) ∧
    (constrained_random_swap c map e1 e2).length = map.length ∧
    (∀ next, constrained_full_key_swap c map e draw = some next →
      next.length = map.length) ∧
    (applyMutations c map ms).length = map.length :=
  ⟨fun _ h => random_move_length h, swap_length c map e1 e2,
    fun _ h => full_key_swap_length h, applyMutations_length c ms map⟩

/-- Witness for C8 at `sampleC` with a three-operator sequence. -/
theorem c8_length_preserved_witness :
    ([0, 2, 2, 3] : KeyMap).length = sampleMap.length ∧
    (applyMutations sampleC sampleMap
      [Mutation.move [1] 0, Mutation.swap [2] [3],
        Mutation.full [1] 0]).length = sampleMap.length := by
  have h := c8_length_preserved sampleC sampleMap 1 2 3 0
    [Mutation.move [1] 0, Mutation.swap [2] [3], Mutation.full [1] 0]
  exact ⟨h.1 [0, 2, 2, 3] (by decide), h.2.2.2⟩

/-- C9: the three optional rule lists are processed as one sequence in the
fixed order by-element, by-index, by-element-and-index; hence a keys-bearing
by-element-and-index rule overwrites a `narrowed` entry produced by an
earlier list (never the reverse); and a keys-absent rule inserts its
elements into `fixed` without removing any earlier `narrowed` entry. -/
theorem c9_rule_list_order (r : Representation) (cs : OptimConstraints)
    (hc : r.constraints = some cs) :
    (gatherValues r =
      cs.elements.getD [] ++ cs.indices.getD [] ++
        cs.element_indices.getD []) ∧
    (∀ (vs2 : List AtomicConstraint) (r1 : AtomicConstraint)
        (es1 : List Element) (ks1 : List Char) (n2 : String) (i2 : Nat)
        (ks2 : List Char) (e : Element) (L2 : List Key) (c : Constraints),
      r1 ∈ cs.elements.getD [] ++ cs.indices.getD [] →
      r1.keys = some ks1 →
      resolveElements r r1 = .ok es1 → e ∈ es1 →
      cs.element_indices = some (vs2 ++ [⟨some n2, some i2, some ks2⟩]) →
      r.elementRepr n2 i2 = some e →
      resolveKeys r ks2 = .ok L2 → L2 ≠ [] →
      Constraints.new r = .ok c →
      lookupNarrowed c.narrowed e = some L2) ∧
    (∀ (ac : AtomicConstraint) (es : List Element) (st st' : CState),
      ac.keys = none → resolveElements r ac = .ok es →
      applyRule r st ac = .ok st' →
      st'.narrowed = st.narrowed ∧ ∀ x ∈ es, x ∈ st'.fixed) := by
  refine ⟨by unfold gatherValues; rw [hc], ?_, ?_⟩
  · intro vs2 r1 es1 ks1 n2 i2 ks2 e L2 c hr1 hk1 hres1 he1 hcei he hks hne
      hnew
    apply new_narrowed_last r
      (cs.elements.getD [] ++ cs.indices.getD [] ++ vs2) n2 i2 ks2 e L2 c
      ?_ he hks hne hnew
    simp only [gatherValues, hc, hcei, Option.getD_some, List.append_assoc]
  · intro ac es st st' hkeys hres happ
    simp only [applyRule, hres] at happ
    rw [hkeys] at happ
    obtain ⟨h1, -, h3⟩ := applyToElements_none r es st st' happ
    exact ⟨h1, h3⟩

/-- Witness for C9 at `c9Rep`: a by-element rule narrowing element 0 to
`['a']` is overwritten by the by-element-and-index rule narrowing it to
`['b']`, and a keys-absent rule fixes element 0 while preserving an
existing `narrowed` entry. -/
theorem c9_rule_list_order_witness :
    (gatherValues c9Rep = [⟨some "x", some 0, some ['a']⟩] ++ [] ++
      [⟨some "x", some 0, some ['b']⟩]) ∧
    lookupNarrowed c9C.narrowed 0 = some [1] ∧
    ((⟨[0], [(0, [1])]⟩ : CState).narrowed =
      (⟨[], [(0, [1])]⟩ : CState).narrowed ∧
      0 ∈ (⟨[0], [(0, [1])]⟩ : CState).fixed) := by
  have h := c9_rule_list_order c9Rep
    ⟨some [⟨some "x", some 0, some ['a']⟩], none,
      some [⟨some "x", some 0, some ['b']⟩]⟩ rfl
  refine ⟨h.1, ?_, ?_⟩
  · exact h.2.1 [] ⟨some "x", some 0, some ['a']⟩ [0] ['a'] "x" 0 ['b'] 0
      [1] c9C (by decide) rfl rfl (by decide) rfl (by decide) rfl
      (by decide) rfl
  · have h3 := h.2.2 ⟨some "x", none, none⟩ [0] ⟨[], [(0, [1])]⟩
      ⟨[0], [(0, [1])]⟩ rfl rfl rfl
    exact ⟨h3.1, h3.2 0 (by decide)⟩

end Constraints


/-- C10: with its persistence flag set, `report_solution` writes exactly two
files sharing the timestamp-derived prefix under the output directory — the
metric text as `.txt` and the YAML-serialized scheme as `.yaml`; without the
flag it writes no files. -/
theorem c10_report_solution_files (timePrefix configYaml metric : String) :
    report_solution timePrefix configYaml metric true =
      [("output/" ++ timePrefix ++ ".txt", metric),
       ("output/" ++ timePrefix ++ ".yaml", configYaml)] ∧
    (report_solution timePrefix configYaml metric true).length = 2 ∧
    report_solution timePrefix configYaml metric false = [] :=
  ⟨rfl, rfl, rfl⟩

end Chai
